import Mathlib

/-!
Verification of the `Composer` metamodel (src/src/metamodels/composer.py).

The Python code is shallowly embedded: pure algorithms (`topological_sort`,
`parse`, `register_foreign_predictor`) become Lean functions; the inference
engine (`_joint_logpdf`, `_weighted_sample`, `simulate`,
`conditional_mutual_information`, `_column_dependence_probability`) is
embedded over an explicit `Env` of external capabilities (the CrossCat base
model, the foreign predictors, and the transcendental float functions),
with the arguments of outgoing calls recorded in explicit traces.
Column numbers are `Int`, cell values are `Int`, log-densities are the
type `LF` (a rational or minus infinity, mirroring IEEE `-inf` as used by
the code).  Fallible Python code (raised exceptions) returns
`Except String`.
-/

namespace BdbComposer

/-! ## Topological sort (`Composer.topological_sort`, composer.py lines 1006-1040)

The Python takes an adjacency map from a node to the list of its
predecessors, snapshots `graph.items()` each round, emits every node none
of whose listed predecessors is still a key of the live map, deletes it
from the live map, and errors when a full scan emits nothing while the map
is non-empty.  `scan` is one round over the snapshot `pending`; `topoGo`
iterates rounds (fuel counts rounds; `graph.length` rounds always
suffice, see `topoGo_total`). -/

def keys (g : List (Nat × List Nat)) : List Nat := g.map Prod.fst

/-- One full pass of the `for node, edges in graph.items()` loop: `pending`
is the snapshot taken at the start of the round, `graph` is the live map
(mutated by `del graph[node]`), `emitted` accumulates `graph_sorted`
appends made during this round.  Returns the live map and the emissions. -/
def scan : List (Nat × List Nat) → List (Nat × List Nat) → List (Nat × List Nat) →
    List (Nat × List Nat) × List (Nat × List Nat)
  | [], graph, emitted => (graph, emitted)
  | (node, edges) :: rest, graph, emitted =>
    if edges.any (fun e => (keys graph).contains e) then
      scan rest graph emitted
    else
      scan rest (graph.filter (fun p => p.1 != node)) (emitted ++ [(node, edges)])

def cyclicMsg : String := "A cyclic dependency occurred in topological_sort."

/-- Loop `while graph:`.  One unit of fuel per round; a round that
emits nothing on a non-empty map raises the cyclic-dependency error. -/
def topoGo : Nat → List (Nat × List Nat) → List (Nat × List Nat) →
    Except String (List (Nat × List Nat))
  | _, [], acc => Except.ok acc
  | 0, _ :: _, _ => Except.error "out of fuel"
  | fuel + 1, p :: g, acc =>
    let r := scan (p :: g) (p :: g) []
    if r.2.isEmpty then Except.error cyclicMsg
    else topoGo fuel r.1 (acc ++ r.2)

def topological_sort (graph : List (Nat × List Nat)) : Except String (List (Nat × List Nat)) :=
  topoGo graph.length graph []

/-- Relation `Edge g a b`: node `a` of the map lists `b` among its predecessors and
`b` is itself a node of the map. -/
def Edge (g : List (Nat × List Nat)) (a b : Nat) : Prop :=
  ∃ ps, (a, ps) ∈ g ∧ b ∈ ps ∧ b ∈ keys g

/-- The adjacency map contains a (directed) cycle, self-loops included. -/
def HasCycle (g : List (Nat × List Nat)) : Prop :=
  ∃ n, Relation.TransGen (Edge g) n n

def Acyclic (g : List (Nat × List Nat)) : Prop := ¬ HasCycle g

/-- Predicate `GoodAfter K seen l`: walking `l` front to back, every predecessor
(restricted to `K`) of every entry has already been seen — either in
`seen` or as the key of an earlier entry of `l`.  With `K := keys g` and
`seen := []` this says every node of `l` appears strictly after each of
its listed predecessors that is a node of the map. -/
def GoodAfter (K : List Nat) : List Nat → List (Nat × List Nat) → Prop
  | _, [] => True
  | seen, (n, ps) :: rest => (∀ p ∈ ps, p ∈ K → p ∈ seen) ∧ GoodAfter K (n :: seen) rest

instance {ε α : Type} [DecidableEq ε] [DecidableEq α] : DecidableEq (Except ε α) := fun x y =>
  match x, y with
  | Except.ok a, Except.ok b =>
    if h : a = b then Decidable.isTrue (by rw [h])
    else Decidable.isFalse (by intro hc; cases hc; exact h rfl)
  | Except.ok _, Except.error _ => Decidable.isFalse (by intro hc; cases hc)
  | Except.error _, Except.ok _ => Decidable.isFalse (by intro hc; cases hc)
  | Except.error e, Except.error f =>
    if h : e = f then Decidable.isTrue (by rw [h])
    else Decidable.isFalse (by intro hc; cases hc; exact h rfl)

/-! ## Values, log-floats and Python-object equality

Cell values are modelled as `Int`; column numbers are `Int`.  Log-densities
in the Python code are floats that can be `-inf` (`-float('inf')`), so they
are modelled as `LF`: either minus infinity or a finite rational. -/

inductive LF
  | ninf
  | val (q : ℚ)
deriving DecidableEq

/-- Float addition restricted to the values the code produces
(`-inf + x = -inf`; no `+inf`/`nan` arises in these flows). -/
def LF.add : LF → LF → LF
  | LF.ninf, _ => LF.ninf
  | _, LF.ninf => LF.ninf
  | LF.val a, LF.val b => LF.val (a + b)

/-- Float subtraction; `x - (-inf)` never occurs with a finite `x` in these
flows (a weight never exceeds the running maximum), so that case is mapped
to `-inf` as well. -/
def LF.sub : LF → LF → LF
  | LF.ninf, _ => LF.ninf
  | LF.val _, LF.ninf => LF.ninf
  | LF.val a, LF.val b => LF.val (a - b)

def LF.mx : LF → LF → LF
  | LF.ninf, b => b
  | a, LF.ninf => a
  | LF.val a, LF.val b => LF.val (max a b)

/-- Maximum (`np.max`) over a list of log-weights (`-inf` on an empty list). -/
def lfMax (l : List LF) : LF := l.foldl LF.mx LF.ninf

/-- Python object as it appears in the `ignore` set of `_joint_logpdf`:
the code inserts **column numbers** but tests **(column, value) pairs**
for membership, so both shapes must coexist, with Python `==` returning
`False` across shapes. -/
inductive PyObj
  | intv (n : Int)
  | pairv (p : Int × Int)
deriving DecidableEq

/-- Python `set.add` (no duplicates). -/
def pyAdd (s : List PyObj) (x : PyObj) : List PyObj :=
  if s.contains x then s else s ++ [x]

/-- Python `in` over a set of objects. -/
def pyMem (x : PyObj) (s : List PyObj) : Bool := s.contains x

/-! ## Python dicts keyed by column number -/

/-- Dict assignment `d[c] = v` (insertion replaces any previous binding of `c`). -/
def dinsert (d : List (Int × Int)) (c v : Int) : List (Int × Int) :=
  d.filter (fun p => p.1 != c) ++ [(c, v)]

/-- Dict update `d.update(kvs)`. -/
def dupdate (d : List (Int × Int)) (kvs : List (Int × Int)) : List (Int × Int) :=
  kvs.foldl (fun acc p => dinsert acc p.1 p.2) d

/-- Dict comprehension for `{c: v for (c, v) in kvs}`. -/
def dofList (kvs : List (Int × Int)) : List (Int × Int) := dupdate [] kvs

/-! ## The external capabilities of one replicate

Everything the engine calls out to — the internal CrossCat generator, the
trained foreign predictors, and the float library (`exp`, `log`,
`logmeanexp`) — is one record of oracle functions, fixed for one
`(bdb, genid, modelno)` triple.  `multinomial_draw` stands for
`np.nonzero(np.random.multinomial(1, p))[0][0]`, fed the iteration index
and the normalized resampling distribution. -/

structure Env where
  n_samples : Nat
  lcols : List Int
  fcols : List Int
  pcols : Int → List Int
  topo : List Int
  colName : Int → String
  cc_colno : Int → Int
  cc_simulate : List (Int × Int) → List Int → Nat → List (List Int)
  cc_column_value_probability : Int → Int → List (Int × Int) → ℚ
  cc_dependence : Int → Int → ℚ
  pred_logpdf : Int → Int → List (String × Int) → LF
  pred_simulate : Int → List (String × Int) → Nat → Int
  logmeanexp : List LF → LF
  pyexp : LF → ℚ
  pylog : ℚ → ℚ
  multinomial_draw : Nat → List ℚ → Nat

/-- Cartesian product `itertools.product(Q, Y)` in iteration order. -/
def pyProduct (Q Y : List (Int × Int)) : List ((Int × Int) × (Int × Int)) :=
  Q.bind (fun q => Y.map (fun y => (q, y)))

/-! ## `Composer._joint_logpdf_cc` (composer.py lines 710-744) -/

/-- The consistency/ownership loop over `itertools.product(Q, Y)`:
`Except.error` for a foreign column, `Except.ok none` for the early
`return -float('inf')`, `Except.ok (some ignore)` otherwise. -/
def jlccScan (env : Env) : List ((Int × Int) × (Int × Int)) → List PyObj →
    Except String (Option (List PyObj))
  | [], ignore => Except.ok (some ignore)
  | ((cq, vq), (cy, vy)) :: rest, ignore =>
    if ¬ (env.lcols.contains cq = true) ∨ ¬ (env.lcols.contains cy = true) then
      Except.error "Foreign colno encountered in internal _joint_logpdf_cc."
    else if cq = cy then
      if vq = vy then jlccScan env rest (pyAdd ignore (PyObj.intv cq))
      else Except.ok none
    else jlccScan env rest ignore

/-- The chain rule: `prob += math.log(r)` with the early `return -inf`
when `column_value_probability` returns `0`, cascading each query pin
into the evidence. -/
def jlccChain (env : Env) : List (Int × Int) → List (Int × Int) → ℚ → LF
  | [], _, acc => LF.val acc
  | (col, val) :: rest, Ycc, acc =>
    let r := env.cc_column_value_probability col val Ycc
    if r = 0 then LF.ninf
    else jlccChain env rest (Ycc ++ [(col, val)]) (acc + env.pylog r)

/-- Embedding of `Composer._joint_logpdf_cc`.  Note that here — unlike in
`_joint_logpdf` — the redundant-pin filter correctly compares column
numbers (`if col not in ignore`). -/
def joint_logpdf_cc (env : Env) (Q Y : List (Int × Int)) : Except String LF :=
  match jlccScan env (pyProduct Q Y) [] with
  | Except.error e => Except.error e
  | Except.ok none => Except.ok LF.ninf
  | Except.ok (some ignore) =>
    let Q_cc := (Q.filter (fun p => ¬ pyMem (PyObj.intv p.1) ignore)).map
      (fun p => (env.cc_colno p.1, p.2))
    let Y_cc := Y.map (fun p => (env.cc_colno p.1, p.2))
    Except.ok (jlccChain env Q_cc Y_cc 0)

/-! ## `Composer._weighted_sample` (composer.py lines 670-708) -/

/-- Body of the `for fcol in self.topo(...)` walk for hypothesis `k`:
gather the known parent values as the `conditions` dict (keyed by column
name), then either weight an evidence value by the predictor's log-density
or fill in the latent cell with a predictor draw. -/
def wsStepFcol (env : Env) (k : Nat) (sw : List (Int × Int) × LF) (fcol : Int) :
    List (Int × Int) × LF :=
  let conditions := (sw.1.filter (fun p => (env.pcols fcol).contains p.1)).map
    (fun p => (env.colName p.1, p.2))
  match sw.1.lookup fcol with
  | some v => (sw.1, LF.add sw.2 (env.pred_logpdf fcol v conditions))
  | none => (dinsert sw.1 fcol (env.pred_simulate fcol conditions k), sw.2)

/-- Embedding of `Composer._weighted_sample`: likelihood-weighted forward sampling.
Evidence `Y` is copied into every sample dict; the local evidence is
weighted once (`w0`) through `_joint_logpdf_cc`; the latent local columns
are drawn in one `cc.simulate` batch; each hypothesis then walks the
foreign columns in topological order.  Returns the parallel lists
`(samples, weights)`. -/
def weighted_sample_w0 (env : Env) (Y_cc : List (Int × Int)) : Except String LF :=
  if Y_cc.isEmpty then Except.ok (LF.val 0)
  else
    match joint_logpdf_cc env Y_cc [] with
    | Except.error e => Except.error e
    | Except.ok r => Except.ok (LF.add (LF.val 0) r)

def weighted_sample (env : Env) (Y : List (Int × Int)) (n_samples : Option Nat) :
    Except String (List (List (Int × Int)) × List LF) :=
  let n := n_samples.getD env.n_samples
  let Y_cc := Y.filter (fun p => env.lcols.contains p.1)
  match weighted_sample_w0 env Y_cc with
  | Except.error e => Except.error e
  | Except.ok w0 =>
    let Q_cc := env.lcols.filter (fun c => ¬ (Y.map Prod.fst).contains c)
    let V_cc := env.cc_simulate Y_cc Q_cc n
    let step := fun (k : Nat) =>
      let s1 := dupdate (dofList Y) (Q_cc.zip (V_cc.getD k []))
      env.topo.foldl (wsStepFcol env k) (s1, w0)
    let pairs := (List.range n).map step
    Except.ok (pairs.map Prod.fst, pairs.map Prod.snd)

/-! ## `Composer._joint_logpdf` (composer.py lines 518-548) -/

/-- The reconciliation loop over `itertools.product(Q, Y)` of
`_joint_logpdf`: `none` models the early `return -float('inf')` on the
first contradictory pair; otherwise the `ignore` set accumulates the
**column numbers** (`ignore.add(cq)`) of agreeing pairs. -/
def jlScan : List ((Int × Int) × (Int × Int)) → List PyObj → Option (List PyObj)
  | [], ignore => some ignore
  | ((cq, vq), (cy, vy)) :: rest, ignore =>
    if cq = cy then
      if vq = vy then jlScan rest (pyAdd ignore (PyObj.intv cq))
      else none
    else jlScan rest ignore

def modelnoMsg : String := "Invalid modelno None, integer requried."

def emptyQMsg : String := "Invalid query Q: len(Q) == 0."

/-- Embedding of `Composer._joint_logpdf`.  Besides the returned log-density it records
the `Y` argument of each `_weighted_sample` call issued, in order.  The
redundant-pin filter is transcribed exactly as written in the source:
`Q = [q for q in Q if q not in ignore]`, where `q` is a **pair** and
`ignore` holds **column numbers** — Python `==` never identifies the two,
so the filter keeps every pin. -/
def joint_logpdf (env : Env) (modelno : Option Int) (Q Y : List (Int × Int))
    (n_samples : Option Nat) :
    Except String (LF × List (List (Int × Int))) := do
  let ns := n_samples.getD env.n_samples
  if modelno = none then
    throw modelnoMsg
  else if Q.length = 0 then
    throw emptyQMsg
  else
    match jlScan (pyProduct Q Y) [] with
    | none => pure (LF.ninf, [])
    | some ignore =>
      let Q1 := Q.filter (fun q => ¬ pyMem (PyObj.pairv q) ignore)
      let qy ← weighted_sample env (Q1 ++ Y) (some ns)
      let yy ← weighted_sample env Y (some ns)
      pure (LF.sub (env.logmeanexp qy.2) (env.logmeanexp yy.2), [Q1 ++ Y, Y])

/-! ## `Composer.simulate` (composer.py lines 640-661) -/

/-- One recorded iteration of the SIR loop of `simulate`: the hypothesis
batch, its log-weights, the normalized resampling distribution and the
drawn index. -/
structure SimTraceEntry where
  samples : List (List (Int × Int))
  weights : List LF
  p : List ℚ
  draw : Nat
deriving DecidableEq

/-- Softmax normalization `p = np.exp(np.asarray(weights) - np.max(weights)); p /= np.sum(p)`. -/
def softmaxNormalize (env : Env) (weights : List LF) : List ℚ :=
  let mx := lfMax weights
  let p0 := weights.map (fun w => env.pyexp (LF.sub w mx))
  let ssum := p0.foldl (fun a b => a + b) 0
  p0.map (fun x => x / ssum)

/-- Loop `for i in xrange(numpredictions)` of `simulate`: one
weighted-sample batch, one softmax normalization and one multinomial draw
per requested output; indices are the remaining iteration numbers. -/
def simGeneral (env : Env) (constraints : List (Int × Int)) (colnos : List Int) :
    List Nat → Except String (List (List (Option Int)) × List SimTraceEntry)
  | [] => Except.ok ([], [])
  | i :: rest => do
    let sw ← weighted_sample env constraints none
    let p := softmaxNormalize env sw.2
    let draw := env.multinomial_draw i p
    let srow := colnos.map (fun col => (sw.1.getD draw []).lookup col)
    let r ← simGeneral env constraints colnos rest
    pure (srow :: r.1, ⟨sw.1, sw.2, p, draw⟩ :: r.2)

/-- Embedding of `Composer.simulate`.  Fast path: when no foreign column occurs among
the constraint columns or the targets, delegate to the internal CrossCat
generator on 1:1 translated column numbers (values are wrapped in `some`
only to share the general path's `dict.get` result type); the SIR trace is
then empty.  General path: sampling-importance-resampling via
`simGeneral`. -/
def simulate (env : Env) (constraints : List (Int × Int)) (colnos : List Int)
    (numpredictions : Nat) :
    Except String (List (List (Option Int)) × List SimTraceEntry) :=
  let all_cols := constraints.map Prod.fst ++ colnos
  if env.fcols.all (fun f => ¬ all_cols.contains f) then
    let Y_cc := constraints.map (fun p => (env.cc_colno p.1, p.2))
    let Q_cc := colnos.map env.cc_colno
    Except.ok ((env.cc_simulate Y_cc Q_cc numpredictions).map (fun row => row.map some), [])
  else
    simGeneral env constraints colnos (List.range numpredictions)

/-! ## `Composer.conditional_mutual_information` (composer.py lines 461-497)

`self.simulate` and `self._joint_logpdf` are consumed here through the
oracle parameters `sim` and `jlp` (they are verified separately above);
what is embedded concretely is the disjointness check, the Python slicing
`s[:len(X)]`, `s[len(X):-len(Z)]`, `s[-len(Z):]`, the `zip` pairings, and
the Monte Carlo average. -/

/-- Python `s[a:-b]` for `a, b ≥ 0` (`-0` is `0`, so `b = 0` empties it). -/
def sliceMid (s : List Int) (a b : Nat) : List Int :=
  if b = 0 then [] else (s.take (s.length - b)).drop a

/-- Python `s[-b:]` (`-0` is `0`, so `b = 0` yields the whole list). -/
def sliceTail (s : List Int) (b : Nat) : List Int :=
  if b = 0 then s else s.drop (s.length - b)

/-- The four query lists handed to `_joint_logpdf` for one sample
(`pz = none` when `Z` is empty and no call is made). -/
structure CMITraceEntry where
  pz : Option (List (Int × Int))
  pxwz : List (Int × Int)
  pxz : List (Int × Int)
  pwz : List (Int × Int)
deriving DecidableEq

def dupColsMsg : String := "Duplicate colnos received in conditional_mutual_information."

/-- Embedding of `Composer.conditional_mutual_information`, transcribed with the
source's own pairings: `Qx = zip(X, s[:len(X)])`,
`Qw = zip(Z, s[len(X):-len(Z)])`, `Qz = zip(W, s[-len(Z):])`. -/
def conditional_mutual_information
    (sim : List (Int × Int) → List Int → Nat → List (List Int))
    (jlp : List (Int × Int) → List (Int × Int) → LF)
    (X W Z : List Int) (Y : List (Int × Int)) (numsamples : Nat) :
    Except String (LF × List CMITraceEntry) :=
  let all_cols := X ++ W ++ Z ++ Y.map Prod.fst
  if all_cols.length ≠ all_cols.dedup.length then Except.error dupColsMsg
  else
    let XWZ_samples := sim Y (X ++ W ++ Z) numsamples
    let entries := XWZ_samples.map (fun s =>
      let Qx := X.zip (s.take X.length)
      let Qw := Z.zip (sliceMid s X.length Z.length)
      let Qz := W.zip (sliceTail s Z.length)
      let logpz := if Z.isEmpty then LF.val 0 else jlp Qz Y
      let logpxwz := jlp (Qx ++ Qw ++ Qz) Y
      let logpxz := jlp (Qx ++ Qz) Y
      let logpwz := jlp (Qw ++ Qz) Y
      (LF.sub (LF.sub (LF.add logpz logpxwz) logpxz) logpwz,
        CMITraceEntry.mk (if Z.isEmpty then none else some Qz)
          (Qx ++ Qw ++ Qz) (Qx ++ Qz) (Qw ++ Qz)))
    let mi := entries.foldl (fun acc e => LF.add acc e.1) (LF.val 0)
    Except.ok
      (match mi with
        | LF.ninf => LF.ninf
        | LF.val q => LF.val (q / (numsamples : ℚ)),
       entries.map Prod.snd)

/-! ## `Composer._column_dependence_probability` (composer.py lines 393-438)

The Python mixes `1`, the CrossCat probability and Python `bool`s in its
return value; numerically `True == 1` and `False == 0`, and the
surrounding `any(...)` applies float truthiness (non-zero) to recursive
results, so the return type is modelled as `ℚ` with booleans as `1`/`0`
and truthiness as `≠ 0`.  The recursion over the acyclic parent graph is
given explicit fuel (one unit per recursive step; any fuel at least the
parent-graph depth yields the Python value). -/

def column_dependence_probability_m (env : Env) : Nat → Int → Int → ℚ
  | 0, _, _ => 0
  | fuel + 1, colno0, colno1 =>
    if colno0 = colno1 then 1
    else
      let c0_foreign := env.fcols.contains colno0
      let c1_foreign := env.fcols.contains colno1
      if ¬ (c0_foreign = true ∨ c1_foreign = true) then
        env.cc_dependence (env.cc_colno colno0) (env.cc_colno colno1)
      else if (env.pcols colno1).contains colno0 = true ∨
          (env.pcols colno0).contains colno1 = true then 1
      else if (c0_foreign = true ∧ c1_foreign = false) ∨
          (c1_foreign = true ∧ c0_foreign = false) then
        let fcol := if c0_foreign = true then colno0 else colno1
        let lcol := if c0_foreign = true then colno1 else colno0
        if (env.pcols fcol).any
            (fun p => decide (column_dependence_probability_m env fuel p lcol ≠ 0)) then 1
        else 0
      else
        if (env.pcols colno0).any (fun p0 => (env.pcols colno1).any
            (fun p1 => decide (column_dependence_probability_m env fuel p0 p1 ≠ 0))) then 1
        else 0

/-! ## `Composer.register_foreign_predictor` (composer.py lines 141-185) -/

/-- Embedding of `bayeslite.util.casefold` (Python `s.lower()`), as a character-wise
lowering. -/
def casefold (s : String) : String := String.mk (s.data.map Char.toLower)

def dupPredictorMsg : String :=
  "A foreign predictor with this name has already been registered."

/-- Registry insertion (`self.predictor_builder[k] = builder`), replacing
any previous binding of the key. -/
def regInsert {B : Type} (d : List (String × B)) (k : String) (v : B) : List (String × B) :=
  d.filter (fun p => p.1 != k) ++ [(k, v)]

/-- Embedding of `Composer.register_foreign_predictor`, acting on the
`predictor_builder` dict: the duplicate check tests the **raw** name
`builder.name()` against the keys, while insertion stores under the
**casefolded** name. -/
def register_foreign_predictor {B : Type} (registry : List (String × B))
    (bname : String) (b : B) : Except String (List (String × B)) :=
  if (registry.map Prod.fst).contains bname then Except.error dupPredictorMsg
  else Except.ok (regInsert registry (casefold bname) b)

/-! ## `Composer.parse` (composer.py lines 820-1004) -/

/-- An element of a schema block as handed over by bayesdb: either a token
string or a nested token list (the commands). -/
inductive SchemaItem
  | tok (s : String)
  | sub (cmds : List String)
deriving DecidableEq

def STATTYPES : List String := ["numerical", "categorical"]

def DIRECTIVES (pbKeys : List String) : List String :=
  ["crosscat", "default", "dependent", "independent"] ++ pbKeys

structure ParseState where
  columns : List (String × String)
  lcols : List String
  fcols : List String
  fcol_to_pcols : List (String × List String)
  fcol_to_fpred : List (String × String)
  dependencies : List (Bool × List String)
deriving DecidableEq

/-- Dict assignment for string-keyed dicts built during parsing. -/
def sinsert {B : Type} (d : List (String × B)) (k : String) (v : B) : List (String × B) :=
  d.filter (fun p => p.1 != k) ++ [(k, v)]

/-- Loop for a `default`/`crosscat` block: pop a column name (commas are
skipped), pop its stattype, validate it, record the pair. -/
def parseDefaultCmds : List String → List (String × String) → List String →
    Except String (List (String × String) × List String)
  | [], columns, lcols => Except.ok (columns, lcols)
  | c0 :: rest, columns, lcols =>
    let c := casefold c0
    if c = "," then parseDefaultCmds rest columns lcols
    else
      match rest with
      | [] => Except.error "IndexError: pop from empty list"
      | s0 :: rest2 =>
        let s := casefold s0
        if ¬ STATTYPES.contains s then Except.error "Invalid stattype."
        else parseDefaultCmds rest2 (sinsert columns c s) (lcols ++ [c])

/-- The comma-separated column-list loop of `dependent`/`independent`
blocks and of the `GIVEN` conditions. -/
def parseColList : List String → List String → List String
  | [], acc => acc
  | c0 :: rest, acc =>
    let c := casefold c0
    if c = "," then parseColList rest acc else parseColList rest (acc ++ [c])

/-- A foreign-predictor block: pop the target column, pop and validate its
stattype, pop and check the `GIVEN` keyword, then collect the conditions. -/
def parsePredictorCmds (cmds : List String) :
    Except String (String × String × List String) :=
  match cmds with
  | [] => Except.error "IndexError: pop from empty list"
  | c0 :: rest =>
    let c := casefold c0
    match rest with
    | [] => Except.error "IndexError: pop from empty list"
    | s0 :: rest2 =>
      let s := casefold s0
      if ¬ STATTYPES.contains s then Except.error "Invalid stattype."
      else
        match rest2 with
        | [] => Except.error "IndexError: pop from empty list"
        | g0 :: rest3 =>
          let given := casefold g0
          if given ≠ "given" then Except.error "Execpted GIVEN keyword."
          else Except.ok (c, s, parseColList rest3 [])

/-- One block of the main `for block in schema` loop (an empty block is
skipped; `block[0]` must be a token; `block[1]` must be a list; the
directive must be recognized before the command list is inspected). -/
def parseBlock (pbKeys : List String) (st : ParseState) (block : List SchemaItem) :
    Except String ParseState :=
  match block with
  | [] => Except.ok st
  | SchemaItem.sub _ :: _ => Except.error "TypeError: casefold of non-string"
  | SchemaItem.tok d0 :: brest =>
    let directive := casefold d0
    match brest with
    | [] => Except.error "IndexError: list index out of range"
    | b1 :: _ =>
      if ¬ (DIRECTIVES pbKeys).contains directive then
        Except.error "Unknown directive."
      else
        match b1 with
        | SchemaItem.tok _ => Except.error "Unknown commands."
        | SchemaItem.sub commands =>
          if directive = "default" ∨ directive = "crosscat" then
            match parseDefaultCmds commands st.columns st.lcols with
            | Except.error e => Except.error e
            | Except.ok (cols, lcs) => Except.ok { st with columns := cols, lcols := lcs }
          else if directive = "independent" then
            Except.ok { st with dependencies :=
              st.dependencies ++ [(false, parseColList commands [])] }
          else if directive = "dependent" then
            Except.ok { st with dependencies :=
              st.dependencies ++ [(true, parseColList commands [])] }
          else if pbKeys.contains directive then
            match parsePredictorCmds commands with
            | Except.error e => Except.error e
            | Except.ok (c, s, conds) =>
              Except.ok { st with
                columns := sinsert st.columns c s,
                fcols := st.fcols ++ [c],
                fcol_to_pcols := sinsert st.fcol_to_pcols c conds,
                fcol_to_fpred := sinsert st.fcol_to_fpred c directive }
          else Except.ok st

def parseBlocks (pbKeys : List String) : List (List SchemaItem) → ParseState →
    Except String ParseState
  | [], st => Except.ok st
  | b :: rest, st =>
    match parseBlock pbKeys st b with
    | Except.error e => Except.error e
    | Except.ok st2 => parseBlocks pbKeys rest st2

/-- Embedding of `Composer.parse`: run the block loop from the empty state, then the
five whole-schema validations, in source order. -/
def parse (pbKeys : List String) (schema : List (List SchemaItem)) :
    Except String ParseState :=
  match parseBlocks pbKeys schema ⟨[], [], [], [], [], []⟩ with
  | Except.error e => Except.error e
  | Except.ok st =>
    if st.lcols.length ≠ st.lcols.dedup.length then
      Except.error "Duplicate default columns enountered."
    else if st.fcols.length ≠ st.fcols.dedup.length then
      Except.error "Duplicate foreign columns enountered."
    else if ¬ (st.fcol_to_pcols.all (fun fc =>
        fc.2.all (fun r => (st.columns.map Prod.fst).contains r))) then
      Except.error "No stattype declaration."
    else if ¬ (st.lcols.all (fun l => ¬ (st.fcol_to_pcols.map Prod.fst).contains l)) then
      Except.error "Column can only be modeled once."
    else if ¬ (st.dependencies.all (fun dep =>
        dep.2.all (fun col => st.lcols.contains col))) then
      Except.error "Column with dependency constraint must have default model."
    else Except.ok st

/-! ## Concrete replicate environments used by witnesses and counterexamples -/

/-- A minimal replicate: one foreign column `0` with no parents and
degenerate oracles. -/
def envEx : Env := {
  n_samples := 1, lcols := [], fcols := [0], pcols := fun _ => [], topo := [0],
  colName := fun _ => "c", cc_colno := id, cc_simulate := fun _ _ _ => [],
  cc_column_value_probability := fun _ _ _ => 1, cc_dependence := fun _ _ => 0,
  pred_logpdf := fun _ _ _ => LF.val 0, pred_simulate := fun _ _ _ => 0,
  logmeanexp := fun _ => LF.ninf, pyexp := fun _ => 1, pylog := fun _ => 0,
  multinomial_draw := fun _ _ => 0 }

/-- A replicate with `n_samples = 3`, one local column `1`, one foreign
column `2`, a deterministic CrossCat draw `k ↦ [k]` and predictor draw
`k ↦ 100 + k`, and a multinomial oracle that picks hypothesis index 2. -/
def env5 : Env := { envEx with
  n_samples := 3, lcols := [1], fcols := [2], topo := [2],
  cc_simulate := fun _ _ n => (List.range n).map (fun k => [(k : Int)]),
  pred_simulate := fun _ _ k => (100 + (k : Int)),
  multinomial_draw := fun _ _ => 2 }

/-- A replicate for the dependence-probability witness: foreign column 10
with single parent 8, everything else local. -/
def env6 : Env := { envEx with
  lcols := [8, 9], fcols := [10], topo := [10],
  pcols := fun c => if c = 10 then [8] else [],
  cc_dependence := fun _ _ => 1 / 2 }

/-! # Theorems -/

/-! ### Association-list facts used by the `topological_sort` proofs -/

theorem mem_keys {g : List (Nat × List Nat)} {a : Nat} :
    a ∈ keys g ↔ ∃ ps, (a, ps) ∈ g := by
  simp only [keys, List.mem_map]
  constructor
  · rintro ⟨⟨x, ps⟩, hm, rfl⟩
    exact ⟨ps, hm⟩
  · rintro ⟨ps, hm⟩
    exact ⟨(a, ps), hm, rfl⟩

theorem keys_cons (x : Nat × List Nat) (rest : List (Nat × List Nat)) :
    keys (x :: rest) = x.1 :: keys rest := rfl

theorem nodup_keys_head {x : Nat × List Nat} {rest : List (Nat × List Nat)}
    (h : (keys (x :: rest)).Nodup) : x.1 ∉ keys rest :=
  (List.nodup_cons.mp (by rw [keys_cons] at h; exact h)).1

theorem nodup_keys_tail {x : Nat × List Nat} {rest : List (Nat × List Nat)}
    (h : (keys (x :: rest)).Nodup) : (keys rest).Nodup :=
  (List.nodup_cons.mp (by rw [keys_cons] at h; exact h)).2

theorem keys_filter_ne (g : List (Nat × List Nat)) (a : Nat) :
    keys (g.filter (fun p => p.1 != a)) = (keys g).filter (fun k => k != a) := by
  induction g with
  | nil => rfl
  | cons x rest ih =>
    by_cases h : x.1 = a
    · simp [keys, List.filter_cons, h] at ih ⊢
      exact ih
    · simp [keys, List.filter_cons, h] at ih ⊢
      exact ih

theorem mem_keys_filter_ne {g : List (Nat × List Nat)} {a x : Nat}
    (hx : x ∈ keys g) (hne : x ≠ a) : x ∈ keys (g.filter (fun p => p.1 != a)) := by
  rw [keys_filter_ne]
  simp only [List.mem_filter, bne_iff_ne, ne_eq, decide_not]
  exact ⟨hx, by simpa using hne⟩

theorem nodup_keys_filter_ne {g : List (Nat × List Nat)} {a : Nat}
    (h : (keys g).Nodup) : (keys (g.filter (fun p => p.1 != a))).Nodup := by
  rw [keys_filter_ne]
  exact h.filter _

theorem perm_extract {g : List (Nat × List Nat)} {a : Nat} {ps : List Nat}
    (hm : (a, ps) ∈ g) (hnd : (keys g).Nodup) :
    List.Perm g ((a, ps) :: g.filter (fun p => p.1 != a)) := by
  induction g with
  | nil => cases hm
  | cons x rest ih =>
    rcases List.mem_cons.mp hm with h | h
    · subst h
      have hnk : a ∉ keys rest := nodup_keys_head hnd
      have hself : rest.filter (fun p => p.1 != a) = rest := by
        apply List.filter_eq_self.mpr
        intro p hp
        simp only [bne_iff_ne, ne_eq, decide_eq_true_eq]
        intro hpa
        exact hnk (mem_keys.mpr ⟨p.2, by rw [← hpa]; exact hp⟩)
      simp [List.filter_cons, hself]
    · have hx : x.1 ≠ a := by
        intro hxa
        have hmem : a ∈ keys rest := mem_keys.mpr ⟨ps, h⟩
        have hnk : x.1 ∉ keys rest := nodup_keys_head hnd
        rw [hxa] at hnk
        exact hnk hmem
      have hrest := ih h (nodup_keys_tail hnd)
      have step1 : List.Perm (x :: rest) (x :: (a, ps) :: rest.filter (fun p => p.1 != a)) :=
        hrest.cons x
      have step2 : List.Perm (x :: (a, ps) :: rest.filter (fun p => p.1 != a))
          ((a, ps) :: x :: rest.filter (fun p => p.1 != a)) := List.Perm.swap _ _ _
      have step3 : (a, ps) :: x :: rest.filter (fun p => p.1 != a) =
          (a, ps) :: (x :: rest).filter (fun p => p.1 != a) := by
        simp [List.filter_cons, hx]
      rw [← step3]
      exact step1.trans step2

/-! ### Facts about one `scan` round -/

theorem scan_sublist : ∀ pending graph emitted,
    List.Sublist (scan pending graph emitted).1 graph
  | [], _, _ => List.Sublist.refl _
  | (node, edges) :: rest, graph, emitted => by
    rw [scan]
    split
    · exact scan_sublist rest graph emitted
    · exact (scan_sublist rest _ _).trans (List.filter_sublist _)

theorem scan_emitted_grows : ∀ pending graph emitted,
    ∃ tail, (scan pending graph emitted).2 = emitted ++ tail
  | [], graph, emitted => ⟨[], by simp [scan]⟩
  | (node, edges) :: rest, graph, emitted => by
    rw [scan]
    split
    · exact scan_emitted_grows rest graph emitted
    · obtain ⟨tail, htail⟩ := scan_emitted_grows rest
        (graph.filter (fun p => p.1 != node)) (emitted ++ [(node, edges)])
      exact ⟨(node, edges) :: tail, by simp [htail]⟩

/-- A round that emits nothing leaves the live map untouched, and every
node of the snapshot has some predecessor among the live keys. -/
theorem scan_stuck : ∀ pending graph emitted,
    (scan pending graph emitted).2 = emitted →
    (scan pending graph emitted).1 = graph ∧
      ∀ np ∈ pending, ∃ p ∈ np.2, p ∈ keys graph
  | [], graph, emitted, _ => by simp [scan]
  | (node, edges) :: rest, graph, emitted, hstay => by
    rw [scan] at hstay ⊢
    by_cases h : edges.any (fun e => (keys graph).contains e) = true
    · rw [if_pos h] at hstay ⊢
      obtain ⟨h1, h2⟩ := scan_stuck rest graph emitted hstay
      refine ⟨h1, ?_⟩
      intro np hnp
      rcases List.mem_cons.mp hnp with rfl | hnp
      · obtain ⟨p, hp, hpk⟩ := List.any_eq_true.mp h
        exact ⟨p, hp, List.elem_iff.mp hpk⟩
      · exact h2 np hnp
    · exfalso
      rw [if_neg h] at hstay
      obtain ⟨tail, htail⟩ := scan_emitted_grows rest
        (graph.filter (fun p => p.1 != node)) (emitted ++ [(node, edges)])
      rw [htail] at hstay
      have hlen := congrArg List.length hstay
      simp at hlen

/-- Multiset conservation of a round: nothing is created or lost, under
the invariant that the snapshot's entries are live with distinct keys. -/
theorem scan_perm : ∀ pending graph emitted,
    (∀ x ∈ pending, x ∈ graph) → (keys pending).Nodup → (keys graph).Nodup →
    List.Perm (graph ++ emitted) ((scan pending graph emitted).1 ++ (scan pending graph emitted).2)
  | [], graph, emitted, _, _, _ => by simp [scan]
  | (node, edges) :: rest, graph, emitted, hsub, hndp, hndg => by
    rw [scan]
    by_cases h : edges.any (fun e => (keys graph).contains e) = true
    · rw [if_pos h]
      exact scan_perm rest graph emitted (fun x hx => hsub x (List.mem_cons_of_mem _ hx))
        (nodup_keys_tail hndp) hndg
    · rw [if_neg h]
      have hmem : (node, edges) ∈ graph := hsub _ (List.mem_cons_self _ _)
      have hnode_rest : node ∉ keys rest := nodup_keys_head hndp
      have hsub2 : ∀ x ∈ rest, x ∈ graph.filter (fun p => p.1 != node) := by
        intro x hx
        have hxg : x ∈ graph := hsub x (List.mem_cons_of_mem _ hx)
        have hxne : x.1 ≠ node := by
          intro hxn
          exact hnode_rest (by rw [← hxn]; exact mem_keys.mpr ⟨x.2, by
            rw [show (x.1, x.2) = x from rfl]; exact hx⟩)
        simp only [List.mem_filter, bne_iff_ne, ne_eq]
        exact ⟨hxg, by simpa using hxne⟩
      have hrec := scan_perm rest (graph.filter (fun p => p.1 != node))
        (emitted ++ [(node, edges)]) hsub2 (nodup_keys_tail hndp)
        (nodup_keys_filter_ne hndg)
      refine List.Perm.trans ?_ hrec
      have hext := perm_extract hmem hndg
      have step1 : List.Perm (graph ++ emitted)
          (((node, edges) :: graph.filter (fun p => p.1 != node)) ++ emitted) :=
        hext.append_right emitted
      have step2 : ((node, edges) :: graph.filter (fun p => p.1 != node)) ++ emitted =
          (node, edges) :: (graph.filter (fun p => p.1 != node) ++ emitted) := by simp
      have step3 : List.Perm ((graph.filter (fun p => p.1 != node) ++ emitted) ++ [(node, edges)])
          ((node, edges) :: (graph.filter (fun p => p.1 != node) ++ emitted)) :=
        List.perm_append_singleton _ _
      refine step1.trans ?_
      rw [step2, ← List.append_assoc]
      exact step3.symm

/-! ### Ordering facts -/

theorem goodAfter_ext (K : List Nat) : ∀ (l : List (Nat × List Nat)) (s s' : List Nat),
    (∀ x, x ∈ s ↔ x ∈ s') → (GoodAfter K s l ↔ GoodAfter K s' l)
  | [], _, _, _ => Iff.rfl
  | (n, ps) :: rest, s, s', hss => by
    rw [GoodAfter, GoodAfter]
    have hrec := goodAfter_ext K rest (n :: s) (n :: s')
      (fun x => by simp only [List.mem_cons]; rw [hss x])
    constructor
    · rintro ⟨h1, h2⟩
      exact ⟨fun p hp hpk => (hss p).mp (h1 p hp hpk), hrec.mp h2⟩
    · rintro ⟨h1, h2⟩
      exact ⟨fun p hp hpk => (hss p).mpr (h1 p hp hpk), hrec.mpr h2⟩

theorem goodAfter_snoc {K : List Nat} {n : Nat} {ps : List Nat} :
    ∀ (l : List (Nat × List Nat)) (s : List Nat),
    GoodAfter K s l → (∀ p ∈ ps, p ∈ K → p ∈ keys l ∨ p ∈ s) →
    GoodAfter K s (l ++ [(n, ps)])
  | [], s, _, hnew => by
    rw [List.nil_append, GoodAfter]
    exact ⟨fun p hp hpk => by
      rcases hnew p hp hpk with h | h
      · cases h
      · exact h, trivial⟩
  | (m, qs) :: rest, s, hgood, hnew => by
    rw [GoodAfter] at hgood
    rw [List.cons_append, GoodAfter]
    refine ⟨hgood.1, ?_⟩
    apply goodAfter_snoc rest (m :: s) hgood.2
    intro p hp hpk
    rcases hnew p hp hpk with h | h
    · rw [keys_cons] at h
      rcases List.mem_cons.mp h with h | h
      · exact Or.inr (by simp [h])
      · exact Or.inl h
    · exact Or.inr (List.mem_cons_of_mem _ h)

theorem goodAfter_concat {K : List Nat} :
    ∀ (a b : List (Nat × List Nat)) (s : List Nat),
    GoodAfter K s a → GoodAfter K (keys a ++ s) b → GoodAfter K s (a ++ b)
  | [], b, s, _, hb => by
    rw [List.nil_append]
    exact (goodAfter_ext K b _ _ (fun x => by simp [keys])).mp hb
  | (n, ps) :: rest, b, s, ha, hb => by
    rw [GoodAfter] at ha
    rw [List.cons_append, GoodAfter]
    refine ⟨ha.1, ?_⟩
    apply goodAfter_concat rest b (n :: s) ha.2
    refine (goodAfter_ext K b _ _ (fun x => ?_)).mp hb
    rw [keys_cons]
    simp only [List.mem_append, List.mem_cons]
    tauto

/-- Within one round, emissions extend the ordering invariant: everything
emitted has all its `K`-predecessors among `s` or earlier emissions, and
every `K`-node is accounted for (already seen, emitted, or still live). -/
theorem scan_good {K : List Nat} : ∀ pending graph emitted (s : List Nat),
    GoodAfter K s emitted →
    (∀ x ∈ K, x ∈ s ∨ x ∈ keys emitted ∨ x ∈ keys graph) →
    GoodAfter K s (scan pending graph emitted).2 ∧
      (∀ x ∈ K, x ∈ s ∨ x ∈ keys (scan pending graph emitted).2 ∨
        x ∈ keys (scan pending graph emitted).1)
  | [], graph, emitted, s, hgood, hcov => by
    rw [scan]
    exact ⟨hgood, hcov⟩
  | (node, edges) :: rest, graph, emitted, s, hgood, hcov => by
    rw [scan]
    by_cases h : edges.any (fun e => (keys graph).contains e) = true
    · rw [if_pos h]
      exact scan_good rest graph emitted s hgood hcov
    · rw [if_neg h]
      have hnolive : ∀ p ∈ edges, p ∉ keys graph := by
        intro p hp hpk
        exact h (List.any_eq_true.mpr ⟨p, hp, List.elem_iff.mpr hpk⟩)
      apply scan_good rest (graph.filter (fun p => p.1 != node))
        (emitted ++ [(node, edges)]) s
      · apply goodAfter_snoc emitted s hgood
        intro p hp hpk
        rcases hcov p hpk with hs | he | hg
        · exact Or.inr hs
        · exact Or.inl he
        · exact absurd hg (hnolive p hp)
      · intro x hx
        rcases hcov x hx with hs | he | hg
        · exact Or.inl hs
        · refine Or.inr (Or.inl ?_)
          simp only [keys, List.map_append, List.mem_append]
          exact Or.inl he
        · by_cases hxn : x = node
          · refine Or.inr (Or.inl ?_)
            simp [keys, hxn]
          · exact Or.inr (Or.inr (mem_keys_filter_ne hg hxn))

/-! ### Facts about the full loop -/

/-- A successful run appends to `acc` a permutation of the input map in
which every emission is preceded by all of its `K`-relevant predecessors. -/
theorem topoGo_ok : ∀ fuel g acc l, (keys g).Nodup → topoGo fuel g acc = Except.ok l →
    ∃ em, l = acc ++ em ∧ List.Perm em g ∧
      ∀ (K s : List Nat), (∀ x ∈ K, x ∈ s ∨ x ∈ keys g) → GoodAfter K s em
  | fuel, [], acc, l, _, hok => by
    rw [topoGo] at hok
    · cases fuel with
      | zero =>
        exact ⟨[], by simpa using (Except.ok.injEq _ _).mp hok |>.symm, List.Perm.refl _,
          fun K s _ => trivial⟩
      | succ n =>
        exact ⟨[], by simpa using (Except.ok.injEq _ _).mp hok |>.symm, List.Perm.refl _,
          fun K s _ => trivial⟩
  | 0, p :: g, acc, l, _, hok => by rw [topoGo] at hok; cases hok
  | fuel + 1, p :: g, acc, l, hnd, hok => by
    rw [topoGo] at hok
    by_cases hem : (scan (p :: g) (p :: g) []).2.isEmpty = true
    · rw [if_pos hem] at hok; cases hok
    · rw [if_neg hem] at hok
      have hsub : ∀ x ∈ (p :: g), x ∈ (p :: g) := fun x hx => hx
      have hperm := scan_perm (p :: g) (p :: g) [] hsub hnd hnd
      rw [List.append_nil] at hperm
      have hnd1 : (keys (scan (p :: g) (p :: g) []).1).Nodup := by
        have := (scan_sublist (p :: g) (p :: g) []).map Prod.fst
        exact this.nodup hnd
      obtain ⟨em2, hl, hperm2, hgood2⟩ :=
        topoGo_ok fuel (scan (p :: g) (p :: g) []).1
          (acc ++ (scan (p :: g) (p :: g) []).2) l hnd1 hok
      refine ⟨(scan (p :: g) (p :: g) []).2 ++ em2, by rw [hl, List.append_assoc], ?_, ?_⟩
      · have h1 : List.Perm ((scan (p :: g) (p :: g) []).2 ++ em2)
            ((scan (p :: g) (p :: g) []).2 ++ (scan (p :: g) (p :: g) []).1) :=
          hperm2.append_left _
        have h2 : List.Perm ((scan (p :: g) (p :: g) []).2 ++ (scan (p :: g) (p :: g) []).1)
            ((scan (p :: g) (p :: g) []).1 ++ (scan (p :: g) (p :: g) []).2) :=
          List.perm_append_comm
        exact (h1.trans h2).trans hperm.symm
      · intro K s hcovK
        have hscan := scan_good (K := K) (p :: g) (p :: g) [] s trivial
          (fun x hx => by
            rcases hcovK x hx with h | h
            · exact Or.inl h
            · exact Or.inr (Or.inr h))
        refine goodAfter_concat _ _ _ hscan.1 ?_
        apply hgood2
        intro x hx
        rcases hscan.2 x hx with h | h | h
        · exact Or.inl (List.mem_append.mpr (Or.inr h))
        · exact Or.inl (List.mem_append.mpr (Or.inl h))
        · exact Or.inr h

/-- With fuel at least the number of nodes, the loop always returns:
either a sorted list or the cyclic-dependency error. -/
theorem topoGo_total : ∀ fuel g acc, (keys g).Nodup → g.length ≤ fuel →
    (∃ l, topoGo fuel g acc = Except.ok l) ∨ topoGo fuel g acc = Except.error cyclicMsg
  | fuel, [], acc, _, _ => by
    left
    cases fuel with
    | zero => exact ⟨acc, by rw [topoGo]⟩
    | succ n => exact ⟨acc, by rw [topoGo]⟩
  | 0, p :: g, acc, _, hlen => by simp at hlen
  | fuel + 1, p :: g, acc, hnd, hlen => by
    rw [topoGo]
    by_cases hem : (scan (p :: g) (p :: g) []).2.isEmpty = true
    · rw [if_pos hem]
      right
      rfl
    · rw [if_neg hem]
      have hsub : ∀ x ∈ (p :: g), x ∈ (p :: g) := fun x hx => hx
      have hperm := scan_perm (p :: g) (p :: g) [] hsub hnd hnd
      rw [List.append_nil] at hperm
      have hnd1 : (keys (scan (p :: g) (p :: g) []).1).Nodup := by
        have := (scan_sublist (p :: g) (p :: g) []).map Prod.fst
        exact this.nodup hnd
      have hlen2 : (scan (p :: g) (p :: g) []).1.length ≤ fuel := by
        have hleq := hperm.length_eq
        rw [List.length_append] at hleq
        have hpos : 0 < (scan (p :: g) (p :: g) []).2.length := by
          cases hsc : (scan (p :: g) (p :: g) []).2 with
          | nil => rw [hsc] at hem; simp at hem
          | cons a b => simp [hsc]
        omega
      exact topoGo_total fuel _ _ hnd1 hlen2

/-- A cyclic-dependency error pinpoints a non-empty sub-map all of whose
nodes still have a live predecessor. -/
theorem topoGo_err : ∀ fuel g acc, topoGo fuel g acc = Except.error cyclicMsg →
    ∃ h, (∀ x ∈ h, x ∈ g) ∧ h ≠ [] ∧ ∀ np ∈ h, ∃ p ∈ np.2, p ∈ keys h
  | fuel, [], acc, herr => by
    cases fuel with
    | zero => rw [topoGo] at herr; cases herr
    | succ n => rw [topoGo] at herr; cases herr
  | 0, p :: g, acc, herr => by
    rw [topoGo] at herr
    have : ("out of fuel" : String) = cyclicMsg := (Except.error.injEq _ _).mp herr
    simp [cyclicMsg] at this
  | fuel + 1, p :: g, acc, herr => by
    rw [topoGo] at herr
    by_cases hem : (scan (p :: g) (p :: g) []).2.isEmpty = true
    · refine ⟨p :: g, fun x hx => hx, by simp, ?_⟩
      have hstuck := scan_stuck (p :: g) (p :: g) []
        (by rwa [List.isEmpty_iff] at hem)
      exact hstuck.2
    · rw [if_neg hem] at herr
      obtain ⟨h, hsub, hne, hpred⟩ := topoGo_err fuel _ _ herr
      exact ⟨h, fun x hx => (scan_sublist (p :: g) (p :: g) []).subset (hsub x hx), hne, hpred⟩

/-! ### From a stuck sub-map to a cycle, and from a sorted order to acyclicity -/

theorem hasCycle_mono {h g : List (Nat × List Nat)} (hsub : ∀ x ∈ h, x ∈ g) :
    HasCycle h → HasCycle g := by
  rintro ⟨n, hn⟩
  refine ⟨n, Relation.TransGen.mono ?_ hn⟩
  rintro a b ⟨ps, hmem, hbps, hbk⟩
  refine ⟨ps, hsub _ hmem, hbps, ?_⟩
  obtain ⟨qs, hq⟩ := mem_keys.mp hbk
  exact mem_keys.mpr ⟨qs, hsub _ hq⟩

/-- A non-empty map in which every node keeps a live predecessor contains
a cycle: follow predecessors and apply the pigeonhole principle. -/
theorem stuck_hasCycle {h : List (Nat × List Nat)} (hne : h ≠ [])
    (hpred : ∀ np ∈ h, ∃ p ∈ np.2, p ∈ keys h) : HasCycle h := by
  have hstep : ∀ a ∈ keys h, ∃ b, Edge h a b ∧ b ∈ keys h := by
    intro a ha
    obtain ⟨ps, hps⟩ := mem_keys.mp ha
    obtain ⟨p, hp, hpk⟩ := hpred (a, ps) hps
    exact ⟨p, ⟨ps, hps, hp, hpk⟩, hpk⟩
  obtain ⟨⟨a0, ps0⟩, ha0⟩ := List.exists_mem_of_ne_nil h hne
  have ha0k : a0 ∈ keys h := mem_keys.mpr ⟨ps0, ha0⟩
  classical
  set f : Nat → Nat := fun a => if ha : a ∈ keys h then (hstep a ha).choose else a0 with hf
  have hfk : ∀ a ∈ keys h, f a ∈ keys h := by
    intro a ha
    rw [hf]
    simp only [ha, dif_pos]
    exact (hstep a ha).choose_spec.2
  have hfe : ∀ a ∈ keys h, Edge h a (f a) := by
    intro a ha
    rw [hf]
    simp only [ha, dif_pos]
    exact (hstep a ha).choose_spec.1
  have hiter : ∀ n, f^[n] a0 ∈ keys h := by
    intro n
    induction n with
    | zero => simpa using ha0k
    | succ m ih =>
      rw [Function.iterate_succ_apply']
      exact hfk _ ih
  have hchain : ∀ d k, 0 < d → Relation.TransGen (Edge h) (f^[k] a0) (f^[k + d] a0) := by
    intro d
    induction d with
    | zero => intro k hk; cases hk
    | succ m ih =>
      intro k _
      cases Nat.eq_zero_or_pos m with
      | inl hm =>
        subst hm
        rw [show k + 1 = k + 1 from rfl, Function.iterate_succ_apply']
        exact Relation.TransGen.single (hfe _ (hiter k))
      | inr hm =>
        have htail := ih k hm
        have : k + (m + 1) = (k + m) + 1 := by omega
        rw [this, Function.iterate_succ_apply']
        exact htail.tail (hfe _ (hiter (k + m)))
  -- pigeonhole: two indices in range (card + 1) hit the same key
  set t := (keys h).toFinset with ht
  have hmap : ∀ i ∈ Finset.range (t.card + 1), f^[i] a0 ∈ t := by
    intro i _
    rw [ht, List.mem_toFinset]
    exact hiter i
  have hcard : t.card < (Finset.range (t.card + 1)).card := by
    rw [Finset.card_range]
    omega
  obtain ⟨i, _, j, _, hij, heq⟩ :=
    Finset.exists_ne_map_eq_of_card_lt_of_maps_to hcard hmap
  rcases Nat.lt_or_ge i j with hlt | hge
  · refine ⟨f^[i] a0, ?_⟩
    have := hchain (j - i) i (by omega)
    rw [show i + (j - i) = j from by omega] at this
    rw [← heq] at this
    exact this
  · have hlt : j < i := by omega
    refine ⟨f^[j] a0, ?_⟩
    have := hchain (i - j) j (by omega)
    rw [show j + (i - j) = i from by omega] at this
    rw [heq] at this
    exact this

/-- Index form of `GoodAfter`: each entry's `K`-predecessors occur in
`seen` or among the keys of the strictly earlier entries. -/
theorem goodAfter_index {K : List Nat} :
    ∀ (l : List (Nat × List Nat)) (s : List Nat), GoodAfter K s l →
    ∀ (i : Nat) (hi : i < l.length), ∀ p ∈ (l.get ⟨i, hi⟩).2, p ∈ K →
      p ∈ s ∨ p ∈ keys (l.take i)
  | [], _, _, i, hi => by simp at hi
  | (n, ps) :: rest, s, hgood, 0, hi => by
    intro p hp hpk
    rw [GoodAfter] at hgood
    exact Or.inl (hgood.1 p hp hpk)
  | (n, ps) :: rest, s, hgood, i + 1, hi => by
    intro p hp hpk
    rw [GoodAfter] at hgood
    have hrec := goodAfter_index rest (n :: s) hgood.2 i (by simpa using hi) p hp hpk
    rcases hrec with h | h
    · rcases List.mem_cons.mp h with h | h
      · refine Or.inr ?_
        rw [List.take_succ_cons, keys_cons]
        exact List.mem_cons.mpr (Or.inl h)
      · exact Or.inl h
    · refine Or.inr ?_
      rw [List.take_succ_cons, keys_cons]
      exact List.mem_cons.mpr (Or.inr h)

theorem indexOf_lt_of_mem_take {L : List Nat} {b : Nat} :
    ∀ {i : Nat}, b ∈ L.take i → List.indexOf b L < i := by
  induction L with
  | nil => intro i h; simp at h
  | cons x rest ih =>
    intro i h
    cases i with
    | zero => simp at h
    | succ m =>
      rw [List.take_succ_cons] at h
      rcases List.mem_cons.mp h with rfl | h
      · simp [List.indexOf_cons_self]
      · by_cases hbx : b = x
        · subst hbx
          simp [List.indexOf_cons_self]
        · rw [List.indexOf_cons_ne _ (fun hk => hbx hk.symm)]
          have := ih h
          omega

theorem indexOf_eq_of_get {L : List Nat} (hnd : L.Nodup) :
    ∀ {i : Nat} (hi : i < L.length), L.get ⟨i, hi⟩ = b → List.indexOf b L = i := by
  induction L with
  | nil => intro i hi; simp at hi
  | cons x rest ih =>
    intro i hi hget
    cases i with
    | zero =>
      simp only [List.get] at hget
      subst hget
      exact List.indexOf_cons_self _ _
    | succ m =>
      simp only [List.get] at hget
      have hb : b ∈ rest := by
        rw [← hget]
        exact List.get_mem _ _ _
      have hbx : b ≠ x := by
        intro hbx
        subst hbx
        exact (List.nodup_cons.mp hnd).1 hb
      rw [List.indexOf_cons_ne _ (fun hk => hbx hk.symm)]
      have := ih (List.nodup_cons.mp hnd).2 (by simpa using hi) hget
      omega

/-- A full sorted permutation of the map certifies acyclicity. -/
theorem goodAfter_acyclic {g l : List (Nat × List Nat)} (hnd : (keys g).Nodup)
    (hperm : List.Perm l g) (hgood : GoodAfter (keys g) [] l) : Acyclic g := by
  have hndl : (keys l).Nodup := ((hperm.map Prod.fst).nodup_iff).mpr hnd
  have hdec : ∀ a b, Edge g a b → List.indexOf b (keys l) < List.indexOf a (keys l) := by
    rintro a b ⟨ps, hmem, hbps, hbk⟩
    have hml : (a, ps) ∈ l := hperm.mem_iff.mpr hmem
    obtain ⟨⟨i, hi⟩, hget⟩ := List.mem_iff_get.mp hml
    have hgetk : (keys l).get ⟨i, by simpa [keys] using hi⟩ = a := by
      simp only [keys, List.get_map, hget]
    have hidxa : List.indexOf a (keys l) = i := indexOf_eq_of_get hndl _ hgetk
    have hidx := goodAfter_index l [] hgood i hi b (by rw [hget]; exact hbps) hbk
    rcases hidx with h | h
    · cases h
    · have hbtake : b ∈ (keys l).take i := by
        have h2 : b ∈ (l.take i).map Prod.fst := h
        rw [List.map_take] at h2
        exact h2
      rw [hidxa]
      exact indexOf_lt_of_mem_take hbtake
  have htg : ∀ a b, Relation.TransGen (Edge g) a b →
      List.indexOf b (keys l) < List.indexOf a (keys l) := by
    intro a b htr
    induction htr with
    | single h => exact hdec _ _ h
    | tail _ h ih => exact lt_trans (hdec _ _ h) ih
  rintro ⟨n, hn⟩
  exact lt_irrefl _ (htg n n hn)

/-- C1.  For every acyclic adjacency map (distinct node keys, as a Python
dict guarantees), `topological_sort` returns a permutation of the map's
(node, predecessors) pairs in which every node appears strictly after each
of its listed predecessors that is itself a node of the map
(`GoodAfter (keys g) []`); for every map containing a cycle — self-loops
included — it raises the cyclic-dependency `ValueError` instead of
returning. -/
theorem C1_topological_sort (g : List (Nat × List Nat)) (hnd : (keys g).Nodup) :
    (Acyclic g → ∃ l, topological_sort g = Except.ok l ∧ List.Perm l g ∧
      GoodAfter (keys g) [] l) ∧
    (HasCycle g → topological_sort g = Except.error cyclicMsg) := by
  constructor
  · intro hac
    rcases topoGo_total g.length g [] hnd (le_refl _) with ⟨l, hok⟩ | herr
    · obtain ⟨em, hl, hperm, hgood⟩ := topoGo_ok g.length g [] l hnd hok
      rw [List.nil_append] at hl
      subst hl
      exact ⟨l, hok, hperm, hgood (keys g) [] (fun x hx => Or.inr hx)⟩
    · exfalso
      obtain ⟨h, hsub, hne, hpred⟩ := topoGo_err g.length g [] herr
      exact hac (hasCycle_mono hsub (stuck_hasCycle hne hpred))
  · intro hcyc
    rcases topoGo_total g.length g [] hnd (le_refl _) with ⟨l, hok⟩ | herr
    · exfalso
      obtain ⟨em, hl, hperm, hgood⟩ := topoGo_ok g.length g [] l hnd hok
      rw [List.nil_append] at hl
      subst hl
      exact goodAfter_acyclic hnd hperm (hgood (keys g) [] (fun x hx => Or.inr hx)) hcyc
    · exact herr

/-- Witness for C1 at the adjacency map from the `topological_sort`
docstring, `{10: [8, 7], 5: [8, 7, 9, 10, 11, 13, 15]}`. -/
theorem C1_topological_sort_witness :
    (keys [(10, [8, 7]), (5, [8, 7, 9, 10, 11, 13, 15])]).Nodup ∧
    ((Acyclic [(10, [8, 7]), (5, [8, 7, 9, 10, 11, 13, 15])] →
      ∃ l, topological_sort [(10, [8, 7]), (5, [8, 7, 9, 10, 11, 13, 15])] = Except.ok l ∧
        List.Perm l [(10, [8, 7]), (5, [8, 7, 9, 10, 11, 13, 15])] ∧
        GoodAfter (keys [(10, [8, 7]), (5, [8, 7, 9, 10, 11, 13, 15])]) [] l) ∧
    (HasCycle [(10, [8, 7]), (5, [8, 7, 9, 10, 11, 13, 15])] →
      topological_sort [(10, [8, 7]), (5, [8, 7, 9, 10, 11, 13, 15])] =
        Except.error cyclicMsg)) :=
  ⟨by decide, C1_topological_sort [(10, [8, 7]), (5, [8, 7, 9, 10, 11, 13, 15])] (by decide)⟩


/-! ## C2, C3, C10: `_joint_logpdf` -/

theorem jlScan_contra : ∀ (pairs : List ((Int × Int) × (Int × Int))) (ignore : List PyObj),
    (∃ pr ∈ pairs, pr.1.1 = pr.2.1 ∧ pr.1.2 ≠ pr.2.2) → jlScan pairs ignore = none
  | [], _, h => by simp at h
  | ((cq, vq), (cy, vy)) :: rest, ignore, h => by
    rw [jlScan]
    by_cases h1 : cq = cy
    · rw [if_pos h1]
      by_cases h2 : vq = vy
      · rw [if_pos h2]
        apply jlScan_contra rest
        obtain ⟨pr, hpr, hc, hv⟩ := h
        rcases List.mem_cons.mp hpr with rfl | hpr
        · exact absurd h2 hv
        · exact ⟨pr, hpr, hc, hv⟩
      · rw [if_neg h2]
    · rw [if_neg h1]
      apply jlScan_contra rest
      obtain ⟨pr, hpr, hc, hv⟩ := h
      rcases List.mem_cons.mp hpr with rfl | hpr
      · exact absurd hc h1
      · exact ⟨pr, hpr, hc, hv⟩

theorem mem_pyProduct {Q Y : List (Int × Int)} {q y : Int × Int}
    (hq : q ∈ Q) (hy : y ∈ Y) : (q, y) ∈ pyProduct Q Y := by
  unfold pyProduct
  rw [List.mem_bind]
  exact ⟨q, hq, List.mem_map.mpr ⟨y, hy, rfl⟩⟩

/-- C2.  Whenever the query and the evidence pin the same column to two
different values, `_joint_logpdf` (on an integer replicate) returns
`-inf` at once, and the recorded list of `_weighted_sample` calls is
empty — so no base-model or predictor call was issued before returning. -/
theorem C2_joint_logpdf_contradiction (env : Env) (m : Int) (Q Y : List (Int × Int))
    (ns : Option Nat) (hcontra : ∃ q ∈ Q, ∃ y ∈ Y, q.1 = y.1 ∧ q.2 ≠ y.2) :
    joint_logpdf env (some m) Q Y ns = Except.ok (LF.ninf, []) := by
  obtain ⟨q, hq, y, hy, hc, hv⟩ := hcontra
  have hscan : jlScan (pyProduct Q Y) [] = none :=
    jlScan_contra _ _ ⟨(q, y), mem_pyProduct hq hy, hc, hv⟩
  have hQ : ¬ Q.length = 0 := by
    cases Q with
    | nil => cases hq
    | cons a as => simp
  simp [joint_logpdf, hQ, hscan]
  rfl

/-- Witness for C2: `Q = [(0, 1)]`, `Y = [(0, 2)]` pin column 0 to two
different values. -/
theorem C2_joint_logpdf_contradiction_witness :
    joint_logpdf envEx (some 0) [(0, 1)] [(0, 2)] none = Except.ok (LF.ninf, []) :=
  C2_joint_logpdf_contradiction envEx 0 [(0, 1)] [(0, 2)] none
    ⟨(0, 1), by decide, (0, 2), by decide, by decide, by decide⟩

/-- C3 (code bug).  The redundant-pin filter
`Q = [q for q in Q if q not in ignore]` compares (column, value) pairs
against a set of bare column numbers, so it never drops anything: first,
the transcribed filter is the identity for every query against every
integer ignore-set; second, at the failing input `Q = [(0, 5)] = Y` the
first `_weighted_sample` call receives `[(0, 5), (0, 5)]` — the agreeing
pin is still in the query (duplicated against the evidence), where the
spec requires it dropped and a result of log 1 = 0 computed from an empty
remaining query. -/
theorem C3_joint_logpdf_pin_not_dropped :
    (∀ (Q : List (Int × Int)) (ig : List Int),
      Q.filter (fun q => ¬ pyMem (PyObj.pairv q) (ig.map PyObj.intv)) = Q) ∧
    joint_logpdf envEx (some 0) [(0, 5)] [(0, 5)] none =
      Except.ok (LF.ninf, [[(0, 5), (0, 5)], [(0, 5)]]) := by
  constructor
  · intro Q ig
    apply List.filter_eq_self.mpr
    intro q _
    have hmem : pyMem (PyObj.pairv q) (ig.map PyObj.intv) = false := by
      unfold pyMem
      induction ig with
      | nil => rfl
      | cons c cs ih => simp [ih]
    simp [hmem]
  · decide

/-- C10.  `_joint_logpdf` validates its inputs before any sampling: a
`None` replicate selector raises `ValueError` (whatever `Q`, `Y` are);
then an empty query raises `ValueError`; consequently an ordinary result
is only ever produced for an integer replicate and a non-empty query. -/
theorem C10_joint_logpdf_validation (env : Env) (m : Int) (Q Y : List (Int × Int))
    (ns : Option Nat) :
    (joint_logpdf env none Q Y ns = Except.error modelnoMsg) ∧
    (Q = [] → joint_logpdf env (some m) Q Y ns = Except.error emptyQMsg) ∧
    (∀ (mo : Option Int) (r : LF × List (List (Int × Int))),
      joint_logpdf env mo Q Y ns = Except.ok r → mo ≠ none ∧ Q ≠ []) := by
  have hnone : joint_logpdf env none Q Y ns = Except.error modelnoMsg := by
    simp [joint_logpdf, modelnoMsg]
    rfl
  have hempty : ∀ (mm : Int), Q = [] → joint_logpdf env (some mm) Q Y ns =
      Except.error emptyQMsg := by
    intro mm hQ
    subst hQ
    simp [joint_logpdf, emptyQMsg]
    rfl
  refine ⟨hnone, hempty m, ?_⟩
  intro mo r hok
  constructor
  · intro hmo
    subst hmo
    rw [hnone] at hok
    cases hok
  · intro hQ
    cases mo with
    | none =>
      rw [hnone] at hok
      cases hok
    | some mm =>
      rw [hempty mm hQ] at hok
      cases hok

/-- Witness for C10 at the concrete environment, replicate 0, and the
empty query. -/
theorem C10_joint_logpdf_validation_witness :
    (joint_logpdf envEx none [(0, 1)] [] none = Except.error modelnoMsg) ∧
    ([(0, 1)] = ([] : List (Int × Int)) →
      joint_logpdf envEx (some 0) [(0, 1)] [] none = Except.error emptyQMsg) ∧
    (∀ (mo : Option Int) (r : LF × List (List (Int × Int))),
      joint_logpdf envEx mo [(0, 1)] [] none = Except.ok r →
        mo ≠ none ∧ ([(0, 1)] : List (Int × Int)) ≠ []) :=
  C10_joint_logpdf_validation envEx 0 [(0, 1)] [] none

/-! ## C4, C5: `simulate` -/

/-- C4.  When no foreign column occurs among the constraint columns or the
targets, `simulate` returns exactly the base model's own simulate on the
1:1-translated column identities (each value injected by `some`, the
shared result type), and the SIR trace is empty — no weighted sampling is
performed. -/
theorem C4_simulate_fast_path (env : Env) (constraints : List (Int × Int))
    (colnos : List Int) (n : Nat)
    (hfast : ∀ f ∈ env.fcols, f ∉ constraints.map Prod.fst ++ colnos) :
    simulate env constraints colnos n =
      Except.ok ((env.cc_simulate (constraints.map (fun p => (env.cc_colno p.1, p.2)))
        (colnos.map env.cc_colno) n).map (fun row => row.map some), []) := by
  have hcond : (env.fcols.all
      (fun f => ¬ (constraints.map Prod.fst ++ colnos).contains f)) = true := by
    rw [List.all_eq_true]
    intro f hf
    simpa [List.elem_iff] using hfast f hf
  unfold simulate
  rw [if_pos hcond]

/-- Witness for C4: constraints on column 1 and target column 2, with the
only foreign column being 0. -/
theorem C4_simulate_fast_path_witness :
    simulate envEx [(1, 7)] [2] 1 =
      Except.ok ((envEx.cc_simulate ([(1, 7)].map (fun p => (envEx.cc_colno p.1, p.2)))
        ([2].map envEx.cc_colno) 1).map (fun row => row.map some), []) :=
  C4_simulate_fast_path envEx [(1, 7)] [2] 1 (by decide)

/-- C5 counterexample.  A `simulate` call on the general path requesting
`n = 1` output does **not** produce 1 joint hypothesis with 1 log-weight:
with the composer's sample count set to 3, the single SIR iteration
produces a batch of **3** hypotheses with **3** log-weights (a fresh batch
per output, of size `n_samples`, not `n`), and the resampling draw (index
2 here) picks among those 3, reading off `some 102` — a value that exists
only because the batch is larger than the single requested output. -/
theorem C5_simulate_counterexample :
    simulate env5 [] [2] 1 =
      Except.ok ([[some 102]],
        [SimTraceEntry.mk [[(1, 0), (2, 100)], [(1, 1), (2, 101)], [(1, 2), (2, 102)]]
          [LF.val 0, LF.val 0, LF.val 0]
          (softmaxNormalize env5 [LF.val 0, LF.val 0, LF.val 0]) 2]) ∧
    env5.n_samples = 3 ∧ (1 : Nat) ≠ 3 := by
  refine ⟨rfl, rfl, by decide⟩

theorem weighted_sample_lengths (env : Env) (Y : List (Int × Int)) (ns : Option Nat)
    (S : List (List (Int × Int))) (W : List LF)
    (hws : weighted_sample env Y ns = Except.ok (S, W)) :
    S.length = ns.getD env.n_samples ∧ W.length = ns.getD env.n_samples := by
  simp only [weighted_sample] at hws
  cases hE : weighted_sample_w0 env (Y.filter (fun p => env.lcols.contains p.1)) with
  | error e =>
    simp only [hE] at hws
    exact Except.noConfusion hws
  | ok w0 =>
    simp only [hE, Except.ok.injEq, Prod.mk.injEq] at hws
    obtain ⟨hS, hW⟩ := hws
    constructor
    · rw [← hS]
      simp
    · rw [← hW]
      simp

theorem simGeneral_closed (env : Env) (constraints : List (Int × Int))
    (colnos : List Int) (S : List (List (Int × Int))) (W : List LF)
    (hws : weighted_sample env constraints none = Except.ok (S, W)) :
    ∀ idxs : List Nat,
    simGeneral env constraints colnos idxs =
      Except.ok (idxs.map (fun i => colnos.map (fun col =>
          (S.getD (env.multinomial_draw i (softmaxNormalize env W)) []).lookup col)),
        idxs.map (fun i => SimTraceEntry.mk S W (softmaxNormalize env W)
          (env.multinomial_draw i (softmaxNormalize env W))))
  | [] => by rw [simGeneral]; rfl
  | i :: rest => by
    rw [simGeneral]
    rw [hws]
    rw [simGeneral_closed env constraints colnos S W hws rest]
    rfl

/-- C5, amended to the code.  On the general path, a `simulate` call
requesting `n` outputs performs one fresh weighted-sampling **per
output**, each producing `n_samples` (the composer's configured sample
count, not `n`) joint hypotheses with `n_samples` scalar log-weights;
each iteration normalizes its own batch's weights by softmax in
log-domain (`softmaxNormalize`: exponentiate after subtracting the
maximum log-weight, then divide by the sum), draws one hypothesis index
from that per-output distribution by multinomial resampling, and reads
the target values off the drawn hypothesis. -/
theorem C5_simulate_general_path (env : Env) (constraints : List (Int × Int))
    (colnos : List Int) (n : Nat) (S : List (List (Int × Int))) (W : List LF)
    (hslow : ¬ (env.fcols.all
      (fun f => ¬ (constraints.map Prod.fst ++ colnos).contains f)) = true)
    (hws : weighted_sample env constraints none = Except.ok (S, W)) :
    S.length = env.n_samples ∧ W.length = env.n_samples ∧
    simulate env constraints colnos n =
      Except.ok ((List.range n).map (fun i => colnos.map (fun col =>
          (S.getD (env.multinomial_draw i (softmaxNormalize env W)) []).lookup col)),
        (List.range n).map (fun i => SimTraceEntry.mk S W (softmaxNormalize env W)
          (env.multinomial_draw i (softmaxNormalize env W)))) := by
  obtain ⟨hS, hW⟩ := weighted_sample_lengths env constraints none S W hws
  refine ⟨hS, hW, ?_⟩
  unfold simulate
  rw [if_neg hslow]
  exact simGeneral_closed env constraints colnos S W hws (List.range n)

/-- Witness for C5 (amended) at `env5`: one requested output, a batch of
three hypotheses. -/
theorem C5_simulate_general_path_witness :
    ([[(1, 0), (2, 100)], [(1, 1), (2, 101)], [(1, 2), (2, 102)]] :
        List (List (Int × Int))).length = env5.n_samples ∧
    ([LF.val 0, LF.val 0, LF.val 0]).length = env5.n_samples ∧
    simulate env5 [] [2] 1 =
      Except.ok ((List.range 1).map (fun i => [(2 : Int)].map (fun col =>
          (([[(1, 0), (2, 100)], [(1, 1), (2, 101)], [(1, 2), (2, 102)]] :
            List (List (Int × Int))).getD
            (env5.multinomial_draw i (softmaxNormalize env5 [LF.val 0, LF.val 0, LF.val 0]))
            []).lookup col)),
        (List.range 1).map (fun i => SimTraceEntry.mk
          [[(1, 0), (2, 100)], [(1, 1), (2, 101)], [(1, 2), (2, 102)]]
          [LF.val 0, LF.val 0, LF.val 0]
          (softmaxNormalize env5 [LF.val 0, LF.val 0, LF.val 0])
          (env5.multinomial_draw i
            (softmaxNormalize env5 [LF.val 0, LF.val 0, LF.val 0])))) :=
  C5_simulate_general_path env5 [] [2] 1
    [[(1, 0), (2, 100)], [(1, 1), (2, 101)], [(1, 2), (2, 102)]]
    [LF.val 0, LF.val 0, LF.val 0] (by decide) rfl

/-! ## C6: `_column_dependence_probability` -/

/-- C6.  Single-replicate column dependence, under the data-model
invariant that only foreign columns have declared parents (the
`bayesdb_composer_column_parents` table stores rows for foreign columns
only): equal column numbers give 1; two local columns delegate to the base
model's pairwise dependence query on the translated numbers; a declared
parent edge gives 1; and a (foreign, local) pair with no direct edge is
dependent (value 1, else 0) exactly when at least one parent of the
foreign column is recursively dependent (non-zero, Python truthiness) on
the local column. -/
theorem C6_column_dependence (env : Env) (fuel : Nat) (c0 c1 : Int)
    (hwf : ∀ c, env.fcols.contains c = false → env.pcols c = []) :
    (c0 = c1 → column_dependence_probability_m env (fuel + 1) c0 c1 = 1) ∧
    (c0 ≠ c1 → env.fcols.contains c0 = false → env.fcols.contains c1 = false →
      column_dependence_probability_m env (fuel + 1) c0 c1 =
        env.cc_dependence (env.cc_colno c0) (env.cc_colno c1)) ∧
    (c0 ≠ c1 → ((env.pcols c1).contains c0 = true ∨ (env.pcols c0).contains c1 = true) →
      column_dependence_probability_m env (fuel + 1) c0 c1 = 1) ∧
    (c0 ≠ c1 → env.fcols.contains c0 = true → env.fcols.contains c1 = false →
      (env.pcols c1).contains c0 = false → (env.pcols c0).contains c1 = false →
      (column_dependence_probability_m env (fuel + 1) c0 c1 = 1 ↔
        ∃ p ∈ env.pcols c0, column_dependence_probability_m env fuel p c1 ≠ 0)) ∧
    (c0 ≠ c1 → env.fcols.contains c0 = false → env.fcols.contains c1 = true →
      (env.pcols c1).contains c0 = false → (env.pcols c0).contains c1 = false →
      (column_dependence_probability_m env (fuel + 1) c0 c1 = 1 ↔
        ∃ p ∈ env.pcols c1, column_dependence_probability_m env fuel p c0 ≠ 0)) := by
  refine ⟨?_, ?_, ?_, ?_, ?_⟩
  · intro heq
    rw [column_dependence_probability_m, if_pos heq]
  · intro hne h0 h1
    rw [column_dependence_probability_m]
    simp only [if_neg hne, h0, h1]
    rw [if_pos (by simp)]
  · intro hne hedge
    have hfor : env.fcols.contains c0 = true ∨ env.fcols.contains c1 = true := by
      rcases hedge with h | h
      · by_contra hcon
        push_neg at hcon
        have h1f : env.fcols.contains c1 = false := by
          cases hc : env.fcols.contains c1
          · rfl
          · exact absurd hc hcon.2
        rw [hwf c1 h1f] at h
        cases h
      · by_contra hcon
        push_neg at hcon
        have h0f : env.fcols.contains c0 = false := by
          cases hc : env.fcols.contains c0
          · rfl
          · exact absurd hc hcon.1
        rw [hwf c0 h0f] at h
        cases h
    rw [column_dependence_probability_m]
    simp only [if_neg hne]
    rw [if_neg (not_not_intro hfor), if_pos hedge]
  · intro hne h0 h1 he1 he0
    rw [column_dependence_probability_m]
    simp only [if_neg hne, h0, h1, he0, he1]
    simp only [Bool.false_eq_true, or_false, false_or, not_true, if_false, if_true,
      true_and, and_true, true_or, and_false, false_and, or_self,
      if_neg (not_not_intro trivial)]
    constructor
    · intro hval
      by_cases hany : ((env.pcols c0).any
          (fun p => decide (column_dependence_probability_m env fuel p c1 ≠ 0))) = true
      · simpa using List.any_eq_true.mp hany
      · rw [if_neg hany] at hval
        exact absurd hval.symm one_ne_zero
    · intro hex
      rw [if_pos (List.any_eq_true.mpr (by simpa using hex))]
  · intro hne h0 h1 he1 he0
    rw [column_dependence_probability_m]
    simp only [if_neg hne, h0, h1, he0, he1]
    simp only [Bool.false_eq_true, or_false, false_or, not_true, if_false, if_true,
      true_and, and_true, true_or, and_false, false_and, or_self, Bool.true_eq_false,
      if_neg (not_not_intro trivial)]
    constructor
    · intro hval
      by_cases hany : ((env.pcols c1).any
          (fun p => decide (column_dependence_probability_m env fuel p c0 ≠ 0))) = true
      · simpa using List.any_eq_true.mp hany
      · rw [if_neg hany] at hval
        exact absurd hval.symm one_ne_zero
    · intro hex
      rw [if_pos (List.any_eq_true.mpr (by simpa using hex))]

/-- Witness for C6 at `env6` (foreign column 10 with parent 8, locals 8
and 9), replicate fixed by the environment. -/
theorem C6_column_dependence_witness :
    ((10 : Int) = 9 → column_dependence_probability_m env6 (1 + 1) 10 9 = 1) ∧
    ((10 : Int) ≠ 9 → env6.fcols.contains 10 = false → env6.fcols.contains 9 = false →
      column_dependence_probability_m env6 (1 + 1) 10 9 =
        env6.cc_dependence (env6.cc_colno 10) (env6.cc_colno 9)) ∧
    ((10 : Int) ≠ 9 →
      ((env6.pcols 9).contains 10 = true ∨ (env6.pcols 10).contains 9 = true) →
      column_dependence_probability_m env6 (1 + 1) 10 9 = 1) ∧
    ((10 : Int) ≠ 9 → env6.fcols.contains 10 = true → env6.fcols.contains 9 = false →
      (env6.pcols 9).contains 10 = false → (env6.pcols 10).contains 9 = false →
      (column_dependence_probability_m env6 (1 + 1) 10 9 = 1 ↔
        ∃ p ∈ env6.pcols 10, column_dependence_probability_m env6 1 p 9 ≠ 0)) ∧
    ((10 : Int) ≠ 9 → env6.fcols.contains 10 = false → env6.fcols.contains 9 = true →
      (env6.pcols 9).contains 10 = false → (env6.pcols 10).contains 9 = false →
      (column_dependence_probability_m env6 (1 + 1) 10 9 = 1 ↔
        ∃ p ∈ env6.pcols 9, column_dependence_probability_m env6 1 p 10 ≠ 0)) :=
  C6_column_dependence env6 1 10 9 (by
    intro c hc
    show (if c = 10 then [8] else []) = []
    by_cases h : c = (10 : Int)
    · subst h
      simp [env6, envEx] at hc
    · simp [h])


/-! ## C7: `conditional_mutual_information` (code bug) -/

/-- C7 (code bug).  At `X = [0]`, `W = [1]`, `Z = []`, no evidence, one
sample, with the joint draw `[5, 7]` (value 5 drawn for column 0, value 7
for column 1): the code builds `Qw = zip(Z, s[len(X):-len(Z)]) = []` and
`Qz = zip(W, s[-len(Z):]) = zip([1], [5, 7]) = [(1, 5)]`, so every density
query pairs column 1 with the value 5 drawn for column 0, and the value 7
drawn for column 1 is never used — where the claim (and the stated MI
identity) requires each sampled value to be paired with the column it was
drawn for, i.e. the pin `(1, 7)`. -/
theorem C7_cmi_mispairing :
    conditional_mutual_information (fun _ _ _ => [[5, 7]]) (fun _ _ => LF.ninf)
      [0] [1] [] [] 1 =
    Except.ok (LF.ninf,
      [CMITraceEntry.mk none [(0, 5), (1, 5)] [(0, 5), (1, 5)] [(1, 5)]]) := by
  rfl

/-! ## C8: `register_foreign_predictor` -/

/-- C8 counterexample.  Registering a builder named `"RF"` into the empty
registry stores it under the casefolded key `"rf"`; registering `"RF"`
again does **not** raise the duplicate-name error (the duplicate check
tests the raw name against the casefolded keys) — it returns successfully
and overwrites the existing entry, leaving the registry with the same
single entry instead of raising. -/
theorem C8_register_counterexample :
    register_foreign_predictor ([] : List (String × Nat)) "RF" 0 =
      Except.ok [("rf", 0)] ∧
    register_foreign_predictor [("rf", 0)] "RF" 1 = Except.ok [("rf", 1)] ∧
    ([("rf", 1)] : List (String × Nat)).length = ([("rf", 0)] : List (String × Nat)).length := by
  refine ⟨by decide, by decide, rfl⟩

theorem regInsert_length_absent {B : Type} (d : List (String × B)) (k : String) (v : B)
    (h : k ∉ d.map Prod.fst) : (regInsert d k v).length = d.length + 1 := by
  unfold regInsert
  have hself : d.filter (fun p => p.1 != k) = d := by
    apply List.filter_eq_self.mpr
    intro p hp
    simp only [bne_iff_ne, ne_eq, decide_eq_true_eq]
    intro hpk
    exact h (List.mem_map.mpr ⟨p, hp, hpk⟩)
  rw [hself]
  simp

theorem filter_key_length {B : Type} : ∀ (d : List (String × B)) (k : String),
    (d.map Prod.fst).Nodup → k ∈ d.map Prod.fst →
    (d.filter (fun p => p.1 != k)).length + 1 = d.length
  | [], k, _, h => by cases h
  | x :: rest, k, hnd, h => by
    by_cases hxk : x.1 = k
    · rw [List.filter_cons, if_neg (by simp [hxk])]
      have hnk : x.1 ∉ rest.map Prod.fst := (List.nodup_cons.mp hnd).1
      have hself : rest.filter (fun p => p.1 != k) = rest := by
        apply List.filter_eq_self.mpr
        intro p hp
        simp only [bne_iff_ne, ne_eq, decide_eq_true_eq]
        intro hpk
        exact hnk (List.mem_map.mpr ⟨p, hp, by rw [hpk, ← hxk]⟩)
      rw [hself]
      simp
    · rw [List.filter_cons, if_pos (by simpa using fun hk => hxk hk)]
      have hkr : k ∈ rest.map Prod.fst := by
        rcases List.mem_cons.mp h with hk | hk
        · exact absurd hk.symm hxk
        · exact hk
      have := filter_key_length rest k (List.nodup_cons.mp hnd).2 hkr
      simp only [List.length_cons]
      omega

theorem regInsert_length_present {B : Type} (d : List (String × B)) (k : String) (v : B)
    (hnd : (d.map Prod.fst).Nodup) (h : k ∈ d.map Prod.fst) :
    (regInsert d k v).length = d.length := by
  unfold regInsert
  rw [List.length_append]
  have := filter_key_length d k hnd h
  simp only [List.length_cons, List.length_nil]
  omega

/-- C8, amended to the code.  `register_foreign_predictor` raises the
duplicate-name error exactly when the builder's **raw** name string is
already a key of the registry (names are stored casefolded, so a
mixed-case respelling of a registered name escapes the check); when no
error is raised the builder is stored under the casefolded name — adding
exactly one entry when that key is absent, and silently replacing the
existing entry (same entry count) when it is present. -/
theorem C8_register_amended {B : Type} (registry : List (String × B))
    (bname : String) (b : B) (hnd : (registry.map Prod.fst).Nodup) :
    ((registry.map Prod.fst).contains bname = true →
      register_foreign_predictor registry bname b = Except.error dupPredictorMsg) ∧
    ((registry.map Prod.fst).contains bname = false →
      register_foreign_predictor registry bname b =
        Except.ok (regInsert registry (casefold bname) b) ∧
      (casefold bname ∉ registry.map Prod.fst →
        (regInsert registry (casefold bname) b).length = registry.length + 1) ∧
      (casefold bname ∈ registry.map Prod.fst →
        (regInsert registry (casefold bname) b).length = registry.length)) := by
  constructor
  · intro hdup
    unfold register_foreign_predictor
    rw [if_pos hdup]
  · intro hnew
    refine ⟨?_, ?_, ?_⟩
    · unfold register_foreign_predictor
      rw [if_neg (by rw [hnew]; simp)]
    · intro habs
      exact regInsert_length_absent registry (casefold bname) b habs
    · intro hpres
      exact regInsert_length_present registry (casefold bname) b hnd hpres

/-- Witness for C8 (amended): registering `"RF"` over the registry that
already holds key `"rf"` (its own casefolding). -/
theorem C8_register_amended_witness :
    ((([("rf", 0)] : List (String × Nat)).map Prod.fst).contains "RF" = true →
      register_foreign_predictor [("rf", 0)] "RF" 1 = Except.error dupPredictorMsg) ∧
    ((([("rf", 0)] : List (String × Nat)).map Prod.fst).contains "RF" = false →
      register_foreign_predictor [("rf", 0)] "RF" 1 =
        Except.ok (regInsert [("rf", 0)] (casefold "RF") 1) ∧
      (casefold "RF" ∉ ([("rf", 0)] : List (String × Nat)).map Prod.fst →
        (regInsert [("rf", 0)] (casefold "RF") 1).length =
          ([("rf", 0)] : List (String × Nat)).length + 1) ∧
      (casefold "RF" ∈ ([("rf", 0)] : List (String × Nat)).map Prod.fst →
        (regInsert [("rf", 0)] (casefold "RF") 1).length =
          ([("rf", 0)] : List (String × Nat)).length)) :=
  C8_register_amended [("rf", 0)] "RF" 1 (by decide)

/-! ## C9: `parse` -/

/-- C9.  Parsing the schema `default(x categorical), rf(y numerical given
x)` with a predictor builder named `rf` registered succeeds and yields
columns `{x: categorical, y: numerical}`, local columns `[x]`, foreign
columns `[y]`, parents `{y: [x]}`, predictor-name assignment `{y: "rf"}`,
and an empty dependency-constraint list. -/
theorem C9_parse_example :
    parse ["rf"]
      [[SchemaItem.tok "default", SchemaItem.sub ["x", "categorical"]],
       [SchemaItem.tok "rf", SchemaItem.sub ["y", "numerical", "given", "x"]]] =
    Except.ok ⟨[("x", "categorical"), ("y", "numerical")], ["x"], ["y"],
      [("y", ["x"])], [("y", "rf")], []⟩ := by
  rfl


end BdbComposer
